import Mathlib

/-!
# Formalization of the route-optimization core (`backend/src/utils/routeOptimizer.ts`)

This file gives a shallow embedding of the route-optimization utilities:
the Haversine distance function, the pairwise distance matrix, the
nearest-neighbor sequencing loop, the duration estimator, and the
route-distance helper.  JavaScript `number`s are modelled as real numbers
(`ℝ`): coordinates are assumed finite, so no `NaN`/`Infinity` arises from
the arithmetic itself.  The `Infinity` initialization of the inner scan is
modelled by an `Option` accumulator (`none` = no candidate yet, which every
real distance beats), and the `while (visited.size < n)` loop is modelled
by fuel-indexed recursion; the top-level function supplies fuel `n - 1`,
the exact number of productive iterations, and a theorem shows the result
is the same for every sufficient fuel.  `Math.round` is modelled by
Mathlib's `round` (`⌊x + 1/2⌋`, which matches JavaScript's round-half-up
on reals), and durations (always produced by `Math.round` or integer
literals) are given type `ℤ`.
-/

noncomputable section

/-- Embeds the `Location` interface: an order id, reference, address and
GPS coordinates. -/
structure Location where
  id : String
  orderNumber : String
  address : String
  latitude : ℝ
  longitude : ℝ

instance : Inhabited Location :=
  ⟨⟨"", "", "", 0, 0⟩⟩

/-- Embeds the `OptimizedRoute` interface: the visiting sequence of order
ids, total distance in km, estimated duration in minutes, and the name of
the algorithm used. -/
structure OptimizedRoute where
  sequence : List String
  totalDistance : ℝ
  estimatedDuration : ℤ
  algorithm : String

/-- Embeds `toRadians`: degrees to radians conversion. -/
def toRadians (degrees : ℝ) : ℝ :=
  degrees * (Real.pi / 180)

/-- Two-argument arctangent, as JavaScript's `Math.atan2(y, x)`: the
argument of the complex number with real part `x` and imaginary part `y`. -/
def atan2 (y x : ℝ) : ℝ :=
  Complex.arg ⟨x, y⟩

/-- Embeds `calculateDistance`: great-circle distance between two GPS
points by the Haversine formula, in kilometers. -/
def calculateDistance (lat1 lon1 lat2 lon2 : ℝ) : ℝ :=
  let R : ℝ := 6371
  let dLat := toRadians (lat2 - lat1)
  let dLon := toRadians (lon2 - lon1)
  let a :=
    Real.sin (dLat / 2) * Real.sin (dLat / 2) +
      Real.cos (toRadians lat1) * Real.cos (toRadians lat2) *
        Real.sin (dLon / 2) * Real.sin (dLon / 2)
  let c := 2 * atan2 (Real.sqrt a) (Real.sqrt (1 - a))
  R * c

/-- Embeds the rounding to two decimal places used by the source,
`Math.round(x * 100) / 100`. -/
def roundTo2 (x : ℝ) : ℝ :=
  (round (x * 100) : ℤ) / 100

/-- Embeds `calculateDistanceMatrix`: the `n × n` matrix whose `(i, j)`
entry is `0` on the diagonal (short-circuited by the `i === j` test) and
`calculateDistance` between stops `i` and `j` off the diagonal. -/
def calculateDistanceMatrix (locations : List Location) : List (List ℝ) :=
  (List.range locations.length).map fun i =>
    (List.range locations.length).map fun j =>
      if i = j then 0
      else
        calculateDistance (locations.getD i default).latitude
          (locations.getD i default).longitude
          (locations.getD j default).latitude
          (locations.getD j default).longitude

/-- Matrix access `distanceMatrix[i][j]` as used by the sequencing loop. -/
def matOf (locations : List Location) : ℕ → ℕ → ℝ :=
  fun i j => ((calculateDistanceMatrix locations).getD i []).getD j 0

/-- Embeds one execution of the inner `for (let i = 0; i < n; i++)` scan of
the sequencing loop over the given index list: visited indices are skipped,
and an unvisited index replaces the current best candidate exactly when its
distance is strictly smaller (`distance < nearestDistance`); a `none` best
models the `nearestDistance = Infinity` initialization, beaten by any real
distance. -/
def scanIndices (visited : Finset ℕ) (row : ℕ → ℝ) :
    List ℕ → Option (ℕ × ℝ) → Option (ℕ × ℝ)
  | [], best => best
  | i :: rest, best =>
      if i ∈ visited then scanIndices visited row rest best
      else
        match best with
        | none => scanIndices visited row rest (some (i, row i))
        | some (k, d) =>
            if row i < d then scanIndices visited row rest (some (i, row i))
            else scanIndices visited row rest (some (k, d))

/-- Embeds the full forward scan `for i in 0 .. n-1` that locates the
nearest unvisited stop; `none` corresponds to `nearestIndex === -1`. -/
def findNearest (n : ℕ) (visited : Finset ℕ) (row : ℕ → ℝ) : Option (ℕ × ℝ) :=
  scanIndices visited row (List.range n) none

/-- State of the sequencing loop: the `visited` index set, the index
`sequence` built so far, the `currentIndex`, and the running
`totalDistance`. -/
structure LoopState where
  visited : Finset ℕ
  seq : List ℕ
  current : ℕ
  total : ℝ

/-- Embeds the `while (visited.size < n)` loop of
`optimizeRouteNearestNeighbor`, indexed by fuel: while the guard holds, the
nearest unvisited stop is found, marked visited, appended to the sequence,
its hop distance added, and made current.  A `none` scan result under a
true guard (impossible for real distances, where every entry beats
`Infinity`) leaves the state unchanged and burns fuel, mirroring the
source's non-terminating spin in that hypothetical case. -/
def nnLoop (mat : ℕ → ℕ → ℝ) (n : ℕ) : ℕ → LoopState → LoopState
  | 0, s => s
  | fuel + 1, s =>
      if s.visited.card < n then
        match findNearest n s.visited (mat s.current) with
        | some (j, d) =>
            nnLoop mat n fuel ⟨insert j s.visited, s.seq ++ [j], j, s.total + d⟩
        | none => nnLoop mat n fuel s
      else s

/-- The loop state right after the `visited.add(0); sequence.push(0)`
initialization. -/
def initState : LoopState :=
  ⟨{0}, [0], 0, 0⟩

/-- Runs the sequencing loop of `optimizeRouteNearestNeighbor` on a list of
locations, with fuel `n - 1`: the exact number of productive iterations the
source's `while` loop performs. -/
def runLoop (locations : List Location) : LoopState :=
  nnLoop (matOf locations) locations.length (locations.length - 1) initState

/-- Embeds `calculateEstimatedDuration`: travel time at 40 km/h plus
5 minutes of service per stop, rounded to the nearest minute. -/
def calculateEstimatedDuration (totalDistance : ℝ) (numStops : ℕ) : ℤ :=
  round ((totalDistance / 40) * 60 + (numStops : ℝ) * 5)

/-- Embeds `optimizeRouteNearestNeighbor`: empty and singleton inputs get
special-cased results; otherwise the distance matrix is built, the greedy
loop is run, indices are mapped back to order ids, and the total distance
is rounded to two decimals while the duration is estimated from the
unrounded total. -/
def optimizeRouteNearestNeighbor (locations : List Location) : OptimizedRoute :=
  if locations.length = 0 then
    ⟨[], 0, 0, "nearest_neighbor"⟩
  else if locations.length = 1 then
    ⟨[(locations.getD 0 default).id], 0, 10, "nearest_neighbor"⟩
  else
    let s := runLoop locations
    ⟨s.seq.map fun index => (locations.getD index default).id,
      roundTo2 s.total,
      calculateEstimatedDuration s.total locations.length,
      "nearest_neighbor"⟩

/-- Embeds the `new Map(locations.map(loc => [loc.id, loc]))` lookup of
`calculateRouteDistance`: a JavaScript `Map` built from an entry list keeps
the last entry for a duplicated key, so lookup finds the last location with
the given id. -/
def lookupLoc (locations : List Location) (id : String) : Option Location :=
  locations.reverse.find? fun loc => loc.id == id

/-- Embeds the accumulation loop of `calculateRouteDistance`: each
consecutive pair whose two ids both resolve contributes its distance, and a
pair with an unresolvable id contributes nothing. -/
def hopSum (locations : List Location) : List String → ℝ
  | id1 :: id2 :: rest =>
      (match lookupLoc locations id1, lookupLoc locations id2 with
        | some l1, some l2 =>
            calculateDistance l1.latitude l1.longitude l2.latitude l2.longitude
        | _, _ => 0) +
        hopSum locations (id2 :: rest)
  | _ => 0

/-- Embeds `calculateRouteDistance`: `0` for sequences of length at most
one, otherwise the accumulated hop sum rounded to two decimals. -/
def calculateRouteDistance (locations : List Location) (sequence : List String) : ℝ :=
  if sequence.length ≤ 1 then 0 else roundTo2 (hopSum locations sequence)

/-- Sum of `mat` over consecutive pairs of an index sequence: the value the
loop's `totalDistance` accumulator reaches on that sequence. -/
def pathSum (mat : ℕ → ℕ → ℝ) : List ℕ → ℝ
  | a :: b :: rest => mat a b + pathSum mat (b :: rest)
  | _ => 0

/-- Distance between stops `i` and `j` of a location list, exactly as the
matrix builder's off-diagonal branch computes it. -/
def stopDist (locations : List Location) (i j : ℕ) : ℝ :=
  calculateDistance (locations.getD i default).latitude
    (locations.getD i default).longitude
    (locations.getD j default).latitude
    (locations.getD j default).longitude

/-! ### Basic facts about the distance function and rounding -/

lemma toRadians_neg (x : ℝ) : toRadians (-x) = -toRadians x := by
  unfold toRadians; ring

lemma sin_toRadians_neg (x : ℝ) :
    Real.sin (toRadians (-x) / 2) = -Real.sin (toRadians x / 2) := by
  rw [toRadians_neg, neg_div, Real.sin_neg]

lemma atan2_nonneg (y x : ℝ) (hy : 0 ≤ y) : 0 ≤ atan2 y x := by
  unfold atan2
  exact Complex.arg_nonneg_iff.mpr hy

lemma calculateDistance_nonneg (lat1 lon1 lat2 lon2 : ℝ) :
    0 ≤ calculateDistance lat1 lon1 lat2 lon2 := by
  unfold calculateDistance
  have h := atan2_nonneg
    (Real.sqrt (Real.sin (toRadians (lat2 - lat1) / 2) *
        Real.sin (toRadians (lat2 - lat1) / 2) +
      Real.cos (toRadians lat1) * Real.cos (toRadians lat2) *
        Real.sin (toRadians (lon2 - lon1) / 2) *
        Real.sin (toRadians (lon2 - lon1) / 2)))
    (Real.sqrt (1 - (Real.sin (toRadians (lat2 - lat1) / 2) *
        Real.sin (toRadians (lat2 - lat1) / 2) +
      Real.cos (toRadians lat1) * Real.cos (toRadians lat2) *
        Real.sin (toRadians (lon2 - lon1) / 2) *
        Real.sin (toRadians (lon2 - lon1) / 2))))
    (Real.sqrt_nonneg _)
  positivity

lemma roundTo2_nonneg (x : ℝ) (hx : 0 ≤ x) : 0 ≤ roundTo2 x := by
  unfold roundTo2
  have h : (0 : ℤ) ≤ round (x * 100) := by
    rw [round_eq]
    have : (0 : ℝ) ≤ x * 100 + 1 / 2 := by linarith
    exact Int.floor_nonneg.mpr (by linarith)
  have h2 : (0 : ℝ) ≤ (round (x * 100) : ℤ) := by exact_mod_cast h
  positivity

/-! ### The distance matrix -/

lemma distanceMatrix_length (locs : List Location) :
    (calculateDistanceMatrix locs).length = locs.length := by
  simp [calculateDistanceMatrix]

lemma distanceMatrix_row_length (locs : List Location) (row : List ℝ)
    (hrow : row ∈ calculateDistanceMatrix locs) : row.length = locs.length := by
  unfold calculateDistanceMatrix at hrow
  rw [List.mem_map] at hrow
  obtain ⟨i, _, rfl⟩ := hrow
  simp

lemma getD_map_range {α : Type} (n : ℕ) (f : ℕ → α) (d : α) (i : ℕ)
    (hi : i < n) : ((List.range n).map f).getD i d = f i := by
  have h1 : i < ((List.range n).map f).length := by simpa using hi
  rw [List.getD_eq_getElem _ _ h1, List.getElem_map, List.getElem_range]

lemma distanceMatrix_entry (locs : List Location) (i j : ℕ)
    (hi : i < locs.length) (hj : j < locs.length) :
    ((calculateDistanceMatrix locs).getD i []).getD j 0 =
      if i = j then 0 else stopDist locs i j := by
  unfold calculateDistanceMatrix stopDist
  rw [getD_map_range _ _ _ i hi, getD_map_range _ _ _ j hj]

lemma matOf_eq (locs : List Location) (i j : ℕ)
    (hi : i < locs.length) (hj : j < locs.length) :
    matOf locs i j = if i = j then 0 else stopDist locs i j := by
  unfold matOf
  exact distanceMatrix_entry locs i j hi hj

/-! ### List helpers -/

lemma range_map_getD {α : Type} (l : List α) (d : α) :
    (List.range l.length).map (fun i => l.getD i d) = l := by
  induction l with
  | nil => rfl
  | cons a t ih =>
      rw [List.length_cons, List.range_succ_eq_map, List.map_cons, List.map_map]
      have hcomp : ((fun i => (a :: t).getD i d) ∘ Nat.succ) =
          fun i => t.getD i d := by
        funext i
        rfl
      rw [hcomp, ih]
      rfl

/-! ### Lookup and hop-sum facts -/

lemma lookupLoc_getD (locs : List Location)
    (hids : (locs.map fun loc => loc.id).Nodup) (a : ℕ) (ha : a < locs.length) :
    lookupLoc locs (locs.getD a default).id = some (locs.getD a default) := by
  have hmem : locs.getD a default ∈ locs := by
    rw [List.getD_eq_getElem _ _ ha]
    exact List.getElem_mem ha
  unfold lookupLoc
  cases hfind : locs.reverse.find? (fun loc => loc.id == (locs.getD a default).id) with
  | none =>
      rw [List.find?_eq_none] at hfind
      have := hfind (locs.getD a default) (List.mem_reverse.mpr hmem)
      simp at this
  | some y =>
      have hy : y.id = (locs.getD a default).id := by
        have hp := List.find?_some hfind
        simpa using hp
      have hymem : y ∈ locs := List.mem_reverse.mp (List.mem_of_find?_eq_some hfind)
      have : y = locs.getD a default :=
        List.inj_on_of_nodup_map hids hymem hmem hy
      rw [this]

lemma hopSum_map_eq (locs : List Location)
    (hids : (locs.map fun loc => loc.id).Nodup) :
    ∀ seq : List ℕ, (∀ i ∈ seq, i < locs.length) →
      hopSum locs (seq.map fun i => (locs.getD i default).id) =
        pathSum (stopDist locs) seq := by
  intro seq
  induction seq with
  | nil => intro _; rfl
  | cons a t ih =>
      intro hb
      cases t with
      | nil => rfl
      | cons b r =>
          have ha : a < locs.length := hb a (by simp)
          have hbl : b < locs.length := hb b (by simp)
          have hbr : ∀ i ∈ b :: r, i < locs.length := fun i hi => hb i (by simp [hi])
          simp only [List.map_cons, hopSum, pathSum]
          rw [lookupLoc_getD locs hids a ha, lookupLoc_getD locs hids b hbl]
          have htail := ih hbr
          simp only [List.map_cons] at htail
          rw [htail]
          rfl

/-! ### Path-sum facts -/

lemma pathSum_matOf_eq (locs : List Location) :
    ∀ seq : List ℕ, seq.Nodup → (∀ i ∈ seq, i < locs.length) →
      pathSum (matOf locs) seq = pathSum (stopDist locs) seq := by
  intro seq
  induction seq with
  | nil => intro _ _; rfl
  | cons a t ih =>
      intro hnd hb
      cases t with
      | nil => rfl
      | cons b r =>
          have hab : a ≠ b := by
            intro h
            subst h
            simp at hnd
          simp only [pathSum]
          rw [matOf_eq locs a b (hb a (by simp)) (hb b (by simp)), if_neg hab,
            ih hnd.of_cons (fun i hi => hb i (by simp [hi]))]

lemma pathSum_stopDist_nonneg (locs : List Location) :
    ∀ seq : List ℕ, 0 ≤ pathSum (stopDist locs) seq := by
  intro seq
  induction seq with
  | nil => simp [pathSum]
  | cons a t ih =>
      cases t with
      | nil => simp [pathSum]
      | cons b r =>
          simp only [pathSum]
          have h1 : 0 ≤ stopDist locs a b :=
            calculateDistance_nonneg (locs.getD a default).latitude
              (locs.getD a default).longitude (locs.getD b default).latitude
              (locs.getD b default).longitude
          linarith [ih]

lemma pathSum_append (mat : ℕ → ℕ → ℝ) :
    ∀ (seq : List ℕ) (hne : seq ≠ []) (j : ℕ),
      pathSum mat (seq ++ [j]) = pathSum mat seq + mat (seq.getLast hne) j := by
  intro seq
  induction seq with
  | nil => intro hne; exact absurd rfl hne
  | cons a t ih =>
      intro hne j
      cases t with
      | nil => simp [pathSum]
      | cons b r =>
          have hne2 : b :: r ≠ [] := by simp
          have hstep : pathSum mat ((a :: b :: r) ++ [j]) =
              mat a b + pathSum mat ((b :: r) ++ [j]) := rfl
          rw [hstep, ih hne2 j]
          have hlast : (a :: b :: r).getLast hne = (b :: r).getLast hne2 :=
            List.getLast_cons hne2
          rw [hlast]
          simp only [pathSum]
          ring

/-! ### The inner scan: nearest unvisited stop -/

lemma scanIndices_append (v : Finset ℕ) (r : ℕ → ℝ) (L1 L2 : List ℕ)
    (b : Option (ℕ × ℝ)) :
    scanIndices v r (L1 ++ L2) b = scanIndices v r L2 (scanIndices v r L1 b) := by
  induction L1 generalizing b with
  | nil => rfl
  | cons i L1 ih =>
      simp only [List.cons_append, scanIndices]
      by_cases hi : i ∈ v
      · simp only [if_pos hi]
        exact ih b
      · simp only [if_neg hi]
        cases b with
        | none => exact ih _
        | some kd =>
            obtain ⟨k, d⟩ := kd
            by_cases hlt : r i < d
            · simp only [if_pos hlt]
              exact ih _
            · simp only [if_neg hlt]
              exact ih _

lemma findNearest_succ (n : ℕ) (v : Finset ℕ) (r : ℕ → ℝ) :
    findNearest (n + 1) v r =
      if n ∈ v then findNearest n v r
      else
        match findNearest n v r with
        | none => some (n, r n)
        | some (k, d) => if r n < d then some (n, r n) else some (k, d) := by
  unfold findNearest
  rw [List.range_succ, scanIndices_append]
  cases h : scanIndices v r (List.range n) none with
  | none =>
      by_cases hn : n ∈ v
      · simp [scanIndices, hn]
      · simp [scanIndices, hn]
  | some kd =>
      obtain ⟨k, d⟩ := kd
      by_cases hn : n ∈ v
      · simp [scanIndices, hn]
      · simp [scanIndices, hn]

lemma findNearest_eq_none (n : ℕ) (v : Finset ℕ) (r : ℕ → ℝ)
    (h : findNearest n v r = none) : ∀ m, m < n → m ∈ v := by
  induction n with
  | zero => intro m hm; omega
  | succ n ih =>
      rw [findNearest_succ] at h
      by_cases hn : n ∈ v
      · rw [if_pos hn] at h
        intro m hm
        rcases Nat.lt_succ_iff_lt_or_eq.mp hm with h1 | h1
        · exact ih h m h1
        · subst h1; exact hn
      · rw [if_neg hn] at h
        cases hfn : findNearest n v r with
        | none => rw [hfn] at h; simp at h
        | some kd =>
            obtain ⟨k, d⟩ := kd
            rw [hfn] at h
            by_cases hlt : r n < d
            · simp [if_pos hlt] at h
            · simp [if_neg hlt] at h

lemma findNearest_some_spec (n : ℕ) (v : Finset ℕ) (r : ℕ → ℝ) :
    ∀ (k : ℕ) (d : ℝ), findNearest n v r = some (k, d) →
      d = r k ∧ k < n ∧ k ∉ v ∧
        (∀ m, m < n → m ∉ v → r k ≤ r m) ∧
        (∀ m, m < k → m ∉ v → r k < r m) := by
  induction n with
  | zero =>
      intro k d h
      simp [findNearest, scanIndices] at h
  | succ n ih =>
      intro k d h
      rw [findNearest_succ] at h
      by_cases hn : n ∈ v
      · rw [if_pos hn] at h
        obtain ⟨hd, hk, hkv, hmin, htie⟩ := ih k d h
        refine ⟨hd, by omega, hkv, ?_, htie⟩
        intro m hm hmv
        rcases Nat.lt_succ_iff_lt_or_eq.mp hm with h1 | h1
        · exact hmin m h1 hmv
        · subst h1; exact absurd hn hmv
      · rw [if_neg hn] at h
        cases hfn : findNearest n v r with
        | none =>
            rw [hfn] at h
            have hall := findNearest_eq_none n v r hfn
            simp only [Option.some.injEq, Prod.mk.injEq] at h
            obtain ⟨hk, hd⟩ := h
            subst hk
            refine ⟨hd.symm, by omega, hn, ?_, ?_⟩
            · intro m hm hmv
              rcases Nat.lt_succ_iff_lt_or_eq.mp hm with h1 | h1
              · exact absurd (hall m h1) hmv
              · subst h1; exact le_refl _
            · intro m hm hmv
              exact absurd (hall m hm) hmv
        | some kd =>
            obtain ⟨k0, d0⟩ := kd
            rw [hfn] at h
            obtain ⟨hd0, hk0, hk0v, hmin0, htie0⟩ := ih k0 d0 hfn
            by_cases hlt : r n < d0
            · simp only [if_pos hlt, Option.some.injEq, Prod.mk.injEq] at h
              obtain ⟨hk, hd⟩ := h
              subst hk
              refine ⟨hd.symm, by omega, hn, ?_, ?_⟩
              · intro m hm hmv
                rcases Nat.lt_succ_iff_lt_or_eq.mp hm with h1 | h1
                · have := hmin0 m h1 hmv
                  rw [hd0] at hlt
                  exact le_of_lt (lt_of_lt_of_le hlt this)
                · subst h1; exact le_refl _
              · intro m hm hmv
                have := hmin0 m hm hmv
                rw [hd0] at hlt
                exact lt_of_lt_of_le hlt this
            · simp only [if_neg hlt, Option.some.injEq, Prod.mk.injEq] at h
              obtain ⟨hk, hd⟩ := h
              subst hk
              subst hd
              refine ⟨hd0, by omega, hk0v, ?_, htie0⟩
              intro m hm hmv
              rcases Nat.lt_succ_iff_lt_or_eq.mp hm with h1 | h1
              · exact hmin0 m h1 hmv
              · subst h1
                rw [hd0] at hlt
                exact le_of_not_lt hlt

lemma findNearest_isSome (n : ℕ) (v : Finset ℕ) (r : ℕ → ℝ) (i : ℕ)
    (hi : i < n) (hiv : i ∉ v) : ∃ k d, findNearest n v r = some (k, d) := by
  cases h : findNearest n v r with
  | none => exact absurd (findNearest_eq_none n v r h i hi) hiv
  | some kd =>
      obtain ⟨k, d⟩ := kd
      exact ⟨k, d, rfl⟩

/-! ### The sequencing loop -/

lemma nnLoop_stable (mat : ℕ → ℕ → ℝ) (n fuel : ℕ) (s : LoopState)
    (h : ¬ s.visited.card < n) : nnLoop mat n fuel s = s := by
  cases fuel with
  | zero => rfl
  | succ fuel => simp only [nnLoop, if_neg h]

lemma nnLoop_spin (mat : ℕ → ℕ → ℝ) (n : ℕ) (fuel : ℕ) (s : LoopState)
    (hg : s.visited.card < n)
    (hn : findNearest n s.visited (mat s.current) = none) :
    nnLoop mat n fuel s = s := by
  induction fuel with
  | zero => rfl
  | succ fuel ih =>
      simp only [nnLoop, if_pos hg, hn]
      exact ih

lemma nnLoop_fuel_add (mat : ℕ → ℕ → ℝ) (n : ℕ) :
    ∀ (fuel extra : ℕ) (s : LoopState), n - s.visited.card ≤ fuel →
      nnLoop mat n (fuel + extra) s = nnLoop mat n fuel s := by
  intro fuel
  induction fuel with
  | zero =>
      intro extra s hf
      have hg : ¬ s.visited.card < n := by omega
      rw [nnLoop_stable mat n (0 + extra) s hg, nnLoop_stable mat n 0 s hg]
  | succ fuel ih =>
      intro extra s hf
      by_cases hg : s.visited.card < n
      · cases hfn : findNearest n s.visited (mat s.current) with
        | none =>
            rw [nnLoop_spin mat n (fuel + 1 + extra) s hg hfn,
              nnLoop_spin mat n (fuel + 1) s hg hfn]
        | some kd =>
            obtain ⟨j, d⟩ := kd
            have hspec := findNearest_some_spec n s.visited (mat s.current) j d hfn
            have hjv : j ∉ s.visited := hspec.2.2.1
            have hcard : (insert j s.visited).card = s.visited.card + 1 :=
              Finset.card_insert_of_not_mem hjv
            have hstep : ∀ f, nnLoop mat n (f + 1) s =
                nnLoop mat n f ⟨insert j s.visited, s.seq ++ [j], j, s.total + d⟩ := by
              intro f
              simp only [nnLoop, if_pos hg, hfn]
            have h1 : fuel + 1 + extra = fuel + extra + 1 := by omega
            rw [h1, hstep (fuel + extra), hstep fuel]
            apply ih
            show n - (insert j s.visited).card ≤ fuel
            rw [hcard]
            omega
      · rw [nnLoop_stable mat n (fuel + 1 + extra) s hg,
          nnLoop_stable mat n (fuel + 1) s hg]

lemma nodup_bound_length_le (n : ℕ) (seq : List ℕ) (hnd : seq.Nodup)
    (hbound : ∀ i ∈ seq, i < n) : seq.length ≤ n := by
  have h1 : seq.toFinset ⊆ Finset.range n := by
    intro i hi
    rw [List.mem_toFinset] at hi
    exact Finset.mem_range.mpr (hbound i hi)
  have h2 := Finset.card_le_card h1
  rw [List.toFinset_card_of_nodup hnd, Finset.card_range] at h2
  exact h2

lemma nnLoop_invariant (mat : ℕ → ℕ → ℝ) (n : ℕ) :
    ∀ (fuel : ℕ) (s : LoopState)
      (hvis : s.visited = s.seq.toFinset)
      (hnd : s.seq.Nodup)
      (hbound : ∀ i ∈ s.seq, i < n)
      (hne : s.seq ≠ [])
      (_ : s.seq.getLast hne = s.current)
      (_ : s.total = pathSum mat s.seq)
      (_ : n - s.seq.length ≤ fuel),
      (nnLoop mat n fuel s).visited = (nnLoop mat n fuel s).seq.toFinset ∧
      (nnLoop mat n fuel s).seq.Nodup ∧
      (∀ i ∈ (nnLoop mat n fuel s).seq, i < n) ∧
      (nnLoop mat n fuel s).seq.length = n ∧
      (nnLoop mat n fuel s).seq.head? = s.seq.head? ∧
      (nnLoop mat n fuel s).total = pathSum mat (nnLoop mat n fuel s).seq := by
  intro fuel
  induction fuel with
  | zero =>
      intro s hvis hnd hbound hne hcur htot hfuel
      have hle : s.seq.length ≤ n := nodup_bound_length_le n s.seq hnd hbound
      have hlen : s.seq.length = n := by omega
      exact ⟨hvis, hnd, hbound, hlen, rfl, htot⟩
  | succ fuel ih =>
      intro s hvis hnd hbound hne hcur htot hfuel
      have hle : s.seq.length ≤ n := nodup_bound_length_le n s.seq hnd hbound
      have hcardlen : s.visited.card = s.seq.length := by
        rw [hvis, List.toFinset_card_of_nodup hnd]
      by_cases hg : s.visited.card < n
      · have hex : ∃ i, i < n ∧ i ∉ s.visited := by
          by_contra hno
          push_neg at hno
          have hsub : Finset.range n ⊆ s.visited := by
            intro i hi
            exact hno i (Finset.mem_range.mp hi)
          have hc := Finset.card_le_card hsub
          rw [Finset.card_range] at hc
          omega
        obtain ⟨i, hi, hiv⟩ := hex
        obtain ⟨j, d, hfn⟩ := findNearest_isSome n s.visited (mat s.current) i hi hiv
        have hspec := findNearest_some_spec n s.visited (mat s.current) j d hfn
        obtain ⟨hd, hj, hjv, _, _⟩ := hspec
        have hjseq : j ∉ s.seq := by
          intro hmem
          exact hjv (by rw [hvis]; exact List.mem_toFinset.mpr hmem)
        have hunfold : nnLoop mat n (fuel + 1) s =
            nnLoop mat n fuel ⟨insert j s.visited, s.seq ++ [j], j, s.total + d⟩ := by
          simp only [nnLoop, if_pos hg, hfn]
        have hne2 : s.seq ++ [j] ≠ [] := by simp
        have hvis2 : insert j s.visited = (s.seq ++ [j]).toFinset := by
          rw [hvis]
          ext x
          simp [or_comm]
        have hnd2 : (s.seq ++ [j]).Nodup := by
          rw [List.nodup_append]
          exact ⟨hnd, List.nodup_singleton j, by simpa using hjseq⟩
        have hbound2 : ∀ i2 ∈ s.seq ++ [j], i2 < n := by
          intro i2 hi2
          rcases List.mem_append.mp hi2 with h2 | h2
          · exact hbound i2 h2
          · rw [List.mem_singleton] at h2
            subst h2
            exact hj
        have hcur2 : (s.seq ++ [j]).getLast hne2 = j := List.getLast_append _
        have htot2 : s.total + d = pathSum mat (s.seq ++ [j]) := by
          rw [pathSum_append mat s.seq hne, htot, hcur, hd]
        have hfuel2 : n - (s.seq ++ [j]).length ≤ fuel := by
          rw [List.length_append, List.length_singleton]
          omega
        have hres := ih ⟨insert j s.visited, s.seq ++ [j], j, s.total + d⟩
          hvis2 hnd2 hbound2 hne2 hcur2 htot2 hfuel2
        rw [hunfold]
        refine ⟨hres.1, hres.2.1, hres.2.2.1, hres.2.2.2.1, ?_, hres.2.2.2.2.2⟩
        rw [hres.2.2.2.2.1]
        cases hseq : s.seq with
        | nil => exact absurd hseq hne
        | cons a t => rfl
      · rw [nnLoop_stable mat n (fuel + 1) s hg]
        have hlen : s.seq.length = n := by omega
        exact ⟨hvis, hnd, hbound, hlen, rfl, htot⟩

lemma runLoop_spec (locs : List Location) (h1 : 1 ≤ locs.length) :
    (runLoop locs).visited = (runLoop locs).seq.toFinset ∧
      (runLoop locs).seq.Nodup ∧
      (∀ i ∈ (runLoop locs).seq, i < locs.length) ∧
      (runLoop locs).seq.length = locs.length ∧
      (runLoop locs).seq.head? = some 0 ∧
      (runLoop locs).total = pathSum (matOf locs) (runLoop locs).seq := by
  have h := nnLoop_invariant (matOf locs) locs.length (locs.length - 1) initState
    (by simp [initState]) (by simp [initState]) ?_ (by simp [initState])
    rfl rfl ?_
  · exact ⟨h.1, h.2.1, h.2.2.1, h.2.2.2.1, h.2.2.2.2.1, h.2.2.2.2.2⟩
  · intro i hi
    simp only [initState, List.mem_singleton] at hi
    omega
  · simp [initState]

lemma runLoop_perm (locs : List Location) (h1 : 1 ≤ locs.length) :
    (runLoop locs).seq.Perm (List.range locs.length) := by
  obtain ⟨_, hnd, hbound, hlen, _, _⟩ := runLoop_spec locs h1
  apply List.perm_of_nodup_nodup_toFinset_eq hnd (List.nodup_range locs.length)
  apply Finset.eq_of_subset_of_card_le
  · intro i hi
    rw [List.mem_toFinset] at hi
    rw [List.mem_toFinset, List.mem_range]
    exact hbound i hi
  · rw [List.toFinset_card_of_nodup (List.nodup_range locs.length),
      List.length_range, List.toFinset_card_of_nodup hnd, hlen]

lemma optimize_eq_of_two_le (locs : List Location) (h2 : 2 ≤ locs.length) :
    optimizeRouteNearestNeighbor locs =
      ⟨(runLoop locs).seq.map fun index => (locs.getD index default).id,
        roundTo2 (runLoop locs).total,
        calculateEstimatedDuration (runLoop locs).total locs.length,
        "nearest_neighbor"⟩ := by
  unfold optimizeRouteNearestNeighbor
  rw [if_neg (by omega), if_neg (by omega)]

lemma range_map_getD_id (locs : List Location) :
    ((List.range locs.length).map fun i => (locs.getD i default).id) =
      locs.map fun loc => loc.id := by
  have h1 : (fun i => (locs.getD i default).id) =
      (fun loc => loc.id) ∘ fun i => locs.getD i default := rfl
  rw [h1, ← List.map_map, range_map_getD]

lemma hopSum_eq_zip_sum (locs : List Location) :
    ∀ sequence : List String,
      hopSum locs sequence = ((sequence.zip sequence.tail).map fun p =>
        match lookupLoc locs p.1, lookupLoc locs p.2 with
        | some l1, some l2 =>
            calculateDistance l1.latitude l1.longitude l2.latitude l2.longitude
        | _, _ => 0).sum := by
  intro s
  induction s with
  | nil => rfl
  | cons a t ih =>
      cases t with
      | nil => rfl
      | cons b r =>
          simp only [List.tail_cons] at ih ⊢
          simp only [hopSum, List.zip_cons_cons, List.map_cons, List.sum_cons]
          rw [ih]
/-! ### Concrete data used to instantiate the theorems -/

/-- A concrete two-stop location list with distinct ids. -/
def wLocs : List Location :=
  [⟨"a", "A-1", "addr1", 0, 0⟩, ⟨"b", "A-2", "addr2", 0, 1⟩]

/-! ### Specification theorems -/

/-- C8: the Haversine distance function is exactly symmetric in its two
points: swapping `(lat1, lon1)` with `(lat2, lon2)` gives the same value
(the latitude and longitude differences flip sign, the squared sines
cancel the sign, and the cosine product commutes). -/
theorem calculateDistance_symmetric (lat1 lon1 lat2 lon2 : ℝ) :
    calculateDistance lat1 lon1 lat2 lon2 = calculateDistance lat2 lon2 lat1 lon1 := by
  unfold calculateDistance
  dsimp only
  have h1 : lat1 - lat2 = -(lat2 - lat1) := by ring
  have h2 : lon1 - lon2 = -(lon2 - lon1) := by ring
  rw [h1, h2, sin_toRadians_neg, sin_toRadians_neg]
  ring_nf

/-- C9: the distance matrix of an `N`-stop list is `N × N`, every diagonal
entry is exactly `0` (the `i === j` short circuit, not a computed
Haversine value), and every off-diagonal entry `(i, j)` is
`calculateDistance` between the coordinates of stops `i` and `j`. -/
theorem distanceMatrix_spec (locs : List Location) :
    (calculateDistanceMatrix locs).length = locs.length ∧
      (∀ row ∈ calculateDistanceMatrix locs, row.length = locs.length) ∧
      (∀ i j : ℕ, i < locs.length → j < locs.length →
        ((calculateDistanceMatrix locs).getD i []).getD j 0 =
          (if i = j then 0 else
            calculateDistance (locs.getD i default).latitude
              (locs.getD i default).longitude
              (locs.getD j default).latitude
              (locs.getD j default).longitude)) := by
  refine ⟨distanceMatrix_length locs, distanceMatrix_row_length locs, ?_⟩
  intro i j hi hj
  rw [distanceMatrix_entry locs i j hi hj]
  rfl

/-- Instantiation of `distanceMatrix_spec`: the empty list yields an empty
matrix, and on a concrete two-stop list the `(0, 0)` entry is exactly `0`
while the `(0, 1)` entry is the Haversine distance between the two stops. -/
theorem distanceMatrix_spec_witness :
    (calculateDistanceMatrix []).length = 0 ∧
      (0 : ℕ) < wLocs.length ∧ (1 : ℕ) < wLocs.length ∧
      ((calculateDistanceMatrix wLocs).getD 0 []).getD 0 0 = 0 ∧
      ((calculateDistanceMatrix wLocs).getD 0 []).getD 1 0 =
        calculateDistance (wLocs.getD 0 default).latitude
          (wLocs.getD 0 default).longitude
          (wLocs.getD 1 default).latitude (wLocs.getD 1 default).longitude := by
  have h0 : (0 : ℕ) < wLocs.length := by simp [wLocs]
  have h1 : (1 : ℕ) < wLocs.length := by simp [wLocs]
  have hdiag := (distanceMatrix_spec wLocs).2.2 0 0 h0 h0
  rw [if_pos rfl] at hdiag
  have hoff := (distanceMatrix_spec wLocs).2.2 0 1 h0 h1
  rw [if_neg (by omega)] at hoff
  exact ⟨(distanceMatrix_spec []).1, h0, h1, hdiag, hoff⟩

/-- C6: the optimizer is total with no error path: the empty input yields
the empty sequence with zero distance and zero duration, a single-stop
input yields that stop's one-element sequence with zero distance and the
fixed 10-minute floor (which is not what the duration formula would give:
that returns 5), and the algorithm field is always the constant
"nearest_neighbor". -/
theorem optimizeRoute_edge_cases :
    optimizeRouteNearestNeighbor [] = ⟨[], 0, 0, "nearest_neighbor"⟩ ∧
      (∀ l : Location, optimizeRouteNearestNeighbor [l] =
        ⟨[l.id], 0, 10, "nearest_neighbor"⟩) ∧
      (∀ locs : List Location,
        (optimizeRouteNearestNeighbor locs).algorithm = "nearest_neighbor") ∧
      calculateEstimatedDuration 0 1 = 5 := by
  refine ⟨rfl, fun l => rfl, ?_, ?_⟩
  · intro locs
    unfold optimizeRouteNearestNeighbor
    split_ifs <;> rfl
  · show round (((0 : ℝ) / 40) * 60 + ((1 : ℕ) : ℝ) * 5) = 5
    have h : ((0 : ℝ) / 40) * 60 + ((1 : ℕ) : ℝ) * 5 = ((5 : ℤ) : ℝ) := by
      push_cast
      ring
    rw [h, round_intCast]

/-- C5: the duration estimator returns `round((d / 40) * 60 + n * 5)`
minutes, which is non-negative whenever the distance is, and for every
input of two or more stops the optimizer's `estimatedDuration` field is
the estimator applied to the unrounded accumulated total distance and the
stop count. -/
theorem estimatedDuration_spec :
    (∀ (d : ℝ) (numStops : ℕ), calculateEstimatedDuration d numStops =
        round ((d / 40) * 60 + (numStops : ℝ) * 5)) ∧
      (∀ (d : ℝ) (numStops : ℕ), 0 ≤ d →
        0 ≤ calculateEstimatedDuration d numStops) ∧
      (∀ locs : List Location, 2 ≤ locs.length →
        (optimizeRouteNearestNeighbor locs).estimatedDuration =
          calculateEstimatedDuration (runLoop locs).total locs.length) := by
  refine ⟨fun d numStops => rfl, ?_, ?_⟩
  · intro d numStops hd
    unfold calculateEstimatedDuration
    rw [round_eq]
    have hn : (0 : ℝ) ≤ (numStops : ℝ) := Nat.cast_nonneg numStops
    exact Int.floor_nonneg.mpr (by linarith)
  · intro locs h2
    rw [optimize_eq_of_two_le locs h2]

/-- Instantiation of `estimatedDuration_spec`: at distance 1 km the
estimate is non-negative, and on a concrete two-stop list the duration
field matches the estimator on the loop's unrounded total. -/
theorem estimatedDuration_spec_witness :
    (0 : ℝ) ≤ 1 ∧ 0 ≤ calculateEstimatedDuration 1 3 ∧
      2 ≤ wLocs.length ∧
      (optimizeRouteNearestNeighbor wLocs).estimatedDuration =
        calculateEstimatedDuration (runLoop wLocs).total wLocs.length := by
  have h2 : 2 ≤ wLocs.length := by simp [wLocs]
  exact ⟨by norm_num, estimatedDuration_spec.2.1 1 3 (by norm_num), h2,
    estimatedDuration_spec.2.2 wLocs h2⟩

/-- C10: the route-distance helper is total: a sequence of length at most
one gives exactly `0`, and a longer sequence gives the two-decimal
rounding of the sum over consecutive id pairs, where a pair either of
whose ids fails to resolve in the location list contributes `0` (it is
silently skipped) rather than raising an error. -/
theorem routeDistance_total_spec (locs : List Location) :
    calculateRouteDistance locs [] = 0 ∧
      (∀ a : String, calculateRouteDistance locs [a] = 0) ∧
      (∀ sequence : List String, 2 ≤ sequence.length →
        calculateRouteDistance locs sequence =
          roundTo2 (((sequence.zip sequence.tail).map fun p =>
            match lookupLoc locs p.1, lookupLoc locs p.2 with
            | some l1, some l2 =>
                calculateDistance l1.latitude l1.longitude l2.latitude l2.longitude
            | _, _ => 0).sum)) := by
  refine ⟨rfl, fun a => rfl, ?_⟩
  intro s h2
  unfold calculateRouteDistance
  rw [if_neg (by omega), hopSum_eq_zip_sum]

/-- Instantiation of `routeDistance_total_spec`: on an empty location list
every id fails to resolve, both hops are skipped, and a two-id sequence
yields `0` without an error. -/
theorem routeDistance_total_spec_witness :
    2 ≤ (["a", "b"] : List String).length ∧
      calculateRouteDistance [] ["a", "b"] = 0 := by
  have h2 : 2 ≤ (["a", "b"] : List String).length := by simp
  have h := (routeDistance_total_spec []).2.2 ["a", "b"] h2
  simp only [lookupLoc, List.reverse_nil, List.find?_nil] at h
  norm_num [roundTo2] at h
  exact ⟨h2, h⟩

/-- C1: on every non-empty input the optimizer's sequence is a permutation
of the input identifiers (same multiset: none omitted, none duplicated
beyond its input multiplicity) and has the same length as the input. -/
theorem optimizeRoute_sequence_perm (l : Location) (rest : List Location) :
    (optimizeRouteNearestNeighbor (l :: rest)).sequence.Perm
        ((l :: rest).map fun loc => loc.id) ∧
      (optimizeRouteNearestNeighbor (l :: rest)).sequence.length =
        (l :: rest).length := by
  cases rest with
  | nil =>
      have he : optimizeRouteNearestNeighbor [l] =
          ⟨[l.id], 0, 10, "nearest_neighbor"⟩ := rfl
      rw [he]
      exact ⟨List.Perm.refl _, rfl⟩
  | cons l2 rest2 =>
      have h2 : 2 ≤ (l :: l2 :: rest2).length := by
        simp only [List.length_cons]
        omega
      have h1 : 1 ≤ (l :: l2 :: rest2).length := by omega
      obtain ⟨_, _, _, hlen, _, _⟩ := runLoop_spec (l :: l2 :: rest2) h1
      have hperm := runLoop_perm (l :: l2 :: rest2) h1
      rw [optimize_eq_of_two_le (l :: l2 :: rest2) h2]
      constructor
      · have hmap := hperm.map fun i => (((l :: l2 :: rest2)).getD i default).id
        rw [range_map_getD_id] at hmap
        exact hmap
      · simp only [List.length_map, hlen]

/-- C2: on every non-empty input the first element of the optimizer's
sequence is the identifier of the first input stop: index 0 is marked
visited and pushed before the greedy loop runs, so the start is never
reordered. -/
theorem optimizeRoute_sequence_first (l : Location) (rest : List Location) :
    (optimizeRouteNearestNeighbor (l :: rest)).sequence.head? = some l.id := by
  cases rest with
  | nil => rfl
  | cons l2 rest2 =>
      have h2 : 2 ≤ (l :: l2 :: rest2).length := by
        simp only [List.length_cons]
        omega
      have h1 : 1 ≤ (l :: l2 :: rest2).length := by omega
      obtain ⟨_, _, _, _, hhead, _⟩ := runLoop_spec (l :: l2 :: rest2) h1
      rw [optimize_eq_of_two_le (l :: l2 :: rest2) h2]
      show ((runLoop (l :: l2 :: rest2)).seq.map fun index =>
        (((l :: l2 :: rest2)).getD index default).id).head? = some l.id
      rw [List.head?_map, hhead]
      rfl

/-- C3: the greedy selection step (the forward scan over input indices
with a strict less-than comparison) returns the stop whose distance is
minimal among unvisited stops, and on an exact tie the candidate with the
smallest input index wins: any unvisited stop at the same distance has an
index at least as large.  The scan (and hence the whole optimizer) is a
pure function of its input, so the choice is deterministic. -/
theorem findNearest_tie_break (n : ℕ) (v : Finset ℕ) (r : ℕ → ℝ) (k : ℕ)
    (d : ℝ) (h : findNearest n v r = some (k, d)) :
    d = r k ∧ k < n ∧ k ∉ v ∧
      (∀ m, m < n → m ∉ v → r k ≤ r m) ∧
      (∀ m, m < n → m ∉ v → r m = r k → k ≤ m) := by
  obtain ⟨hd, hk, hkv, hmin, hstrict⟩ := findNearest_some_spec n v r k d h
  refine ⟨hd, hk, hkv, hmin, ?_⟩
  intro m hm hmv heq
  by_contra hlt
  push_neg at hlt
  have hc := hstrict m hlt hmv
  rw [heq] at hc
  exact lt_irrefl _ hc

/-- Instantiation of `findNearest_tie_break` on a symmetric layout: from
current stop 0, stops 1 and 2 are both at distance 5, and the scan picks
stop 1, the earlier index. -/
theorem findNearest_tie_break_witness :
    (1 : ℕ) ∉ ({0} : Finset ℕ) ∧ (1 : ℕ) < 3 ∧ (1 : ℕ) ≤ 2 := by
  have h : findNearest 3 {0} (fun i => if i = 0 then (0 : ℝ) else 5) =
      some (1, 5) := by
    show scanIndices {0} _ (List.range 3) none = _
    rw [show List.range 3 = [0, 1, 2] from rfl]
    norm_num [scanIndices]
  obtain ⟨hd, hk, hkv, hmin, htie⟩ :=
    findNearest_tie_break 3 {0} (fun i => if i = 0 then (0 : ℝ) else 5) 1 5 h
  exact ⟨hkv, hk, htie 2 (by norm_num) (by decide) (by norm_num)⟩

/-- C4: for every input of two or more stops the optimizer's total
distance is non-negative, equals the two-decimal rounding of the sum of
Haversine distances between consecutive stops of the returned index
sequence, and (when the input identifiers are distinct so id lookup is
unambiguous) equals `calculateRouteDistance` applied to the same
locations and the returned sequence. -/
theorem optimizeRoute_totalDistance_spec (locs : List Location)
    (h2 : 2 ≤ locs.length) :
    0 ≤ (optimizeRouteNearestNeighbor locs).totalDistance ∧
      (optimizeRouteNearestNeighbor locs).totalDistance =
        roundTo2 (pathSum (stopDist locs) (runLoop locs).seq) ∧
      ((locs.map fun loc => loc.id).Nodup →
        (optimizeRouteNearestNeighbor locs).totalDistance =
          calculateRouteDistance locs
            (optimizeRouteNearestNeighbor locs).sequence) := by
  have h1 : 1 ≤ locs.length := by omega
  obtain ⟨hvis, hnd, hbound, hlen, hhead, htot⟩ := runLoop_spec locs h1
  have hps : pathSum (matOf locs) (runLoop locs).seq =
      pathSum (stopDist locs) (runLoop locs).seq :=
    pathSum_matOf_eq locs (runLoop locs).seq hnd hbound
  have hTD : (optimizeRouteNearestNeighbor locs).totalDistance =
      roundTo2 (pathSum (stopDist locs) (runLoop locs).seq) := by
    rw [optimize_eq_of_two_le locs h2]
    show roundTo2 (runLoop locs).total = _
    rw [htot, hps]
  refine ⟨?_, hTD, ?_⟩
  · rw [hTD]
    exact roundTo2_nonneg _ (pathSum_stopDist_nonneg locs (runLoop locs).seq)
  · intro hids
    rw [optimize_eq_of_two_le locs h2]
    show roundTo2 (runLoop locs).total =
      calculateRouteDistance locs ((runLoop locs).seq.map fun index =>
        (locs.getD index default).id)
    unfold calculateRouteDistance
    have hlen2 : ((runLoop locs).seq.map fun index =>
        (locs.getD index default).id).length = locs.length := by
      rw [List.length_map, hlen]
    rw [if_neg (by rw [hlen2]; omega),
      hopSum_map_eq locs hids (runLoop locs).seq hbound, htot, hps]

/-- Instantiation of `optimizeRoute_totalDistance_spec` on a concrete
two-stop list with distinct ids. -/
theorem optimizeRoute_totalDistance_spec_witness :
    2 ≤ wLocs.length ∧ (wLocs.map fun loc => loc.id).Nodup ∧
      0 ≤ (optimizeRouteNearestNeighbor wLocs).totalDistance ∧
      (optimizeRouteNearestNeighbor wLocs).totalDistance =
        calculateRouteDistance wLocs
          (optimizeRouteNearestNeighbor wLocs).sequence := by
  have h2 : 2 ≤ wLocs.length := by simp [wLocs]
  have hids : (wLocs.map fun loc => loc.id).Nodup := by
    simp [wLocs]
  exact ⟨h2, hids, (optimizeRoute_totalDistance_spec wLocs h2).1,
    (optimizeRoute_totalDistance_spec wLocs h2).2.2 hids⟩

/-- C7: for every location list the greedy loop terminates after exactly
`N - 1` productive selection steps — any fuel of at least `N - 1` yields
the very same state as the canonical run — and the resulting index
sequence visits every stop exactly once (it has no duplicates, has length
`N`, and is a permutation of all indices), independently of the distance
values, so duplicate coordinates (distance 0) cannot cause a revisit or a
non-terminating loop. -/
theorem optimizeRoute_loop_terminates (locs : List Location) (fuel : ℕ)
    (h1 : 1 ≤ locs.length) (hf : locs.length - 1 ≤ fuel) :
    nnLoop (matOf locs) locs.length fuel initState = runLoop locs ∧
      (runLoop locs).seq.length = locs.length ∧
      (runLoop locs).seq.Nodup ∧
      (runLoop locs).seq.Perm (List.range locs.length) := by
  refine ⟨?_, (runLoop_spec locs h1).2.2.2.1, (runLoop_spec locs h1).2.1,
    runLoop_perm locs h1⟩
  have hsplit : fuel = (locs.length - 1) + (fuel - (locs.length - 1)) := by
    omega
  rw [hsplit]
  exact nnLoop_fuel_add (matOf locs) locs.length (locs.length - 1)
    (fuel - (locs.length - 1)) initState (by simp [initState])

/-- Instantiation of `optimizeRoute_loop_terminates` on a concrete
two-stop list with surplus fuel. -/
theorem optimizeRoute_loop_terminates_witness :
    1 ≤ wLocs.length ∧ wLocs.length - 1 ≤ 7 ∧
      (runLoop wLocs).seq.length = wLocs.length := by
  have h1 : 1 ≤ wLocs.length := by simp [wLocs]
  have hf : wLocs.length - 1 ≤ 7 := by simp [wLocs]
  exact ⟨h1, hf, (optimizeRoute_loop_terminates wLocs 7 h1 hf).2.1⟩

end
